import Mathlib

/-!
Verification of the automata prototype in prueba.py: a DFA that accepts any
sequence containing the pattern t-at-least-3 followed by h-at-least-2, a PDA
accepting the language of n copies of t followed by n copies of h (n at least
1), and a regex-based pattern detector over the same alphabet.

Sequences of symbols are modelled as `List Char`.  The mutable DFA instance is
modelled as a record that every operation takes and returns; the Python
methods `reset`, `step` and `run` become pure functions on that record, with
`run` returning both the boolean result and the final instance state.
-/

set_option autoImplicit false

namespace Prueba

/-- The six values the field `estado` of the Python class DFA takes. -/
inductive Estado where
  | q0 | q1 | q2 | q3 | q4 | q_accept
deriving DecidableEq, Repr

/-- The instance state of the Python class DFA: the fields set by `reset`. -/
structure DFA where
  estado : Estado
  cont_t : Nat
  cont_h : Nat
deriving DecidableEq, Repr

/-- `DFA.reset`: sets `estado` to q0 and zeroes both counters. -/
def DFA.reset (_d : DFA) : DFA :=
  { estado := Estado.q0, cont_t := 0, cont_h := 0 }

/-- `DFA.__init__` just calls `reset`, so a freshly constructed instance. -/
def DFA.nuevo : DFA :=
  DFA.reset { estado := Estado.q0, cont_t := 0, cont_h := 0 }

/-- `DFA.step`: one transition of the automaton, translated branch by branch
from the Python source, including the two dead inner checks in the else
branches of q1 and q2. -/
def DFA.step (d : DFA) (simbolo : Char) : DFA :=
  match d.estado with
  | Estado.q0 =>
      if simbolo = 't' then { d with cont_t := 1, estado := Estado.q1 }
      else d.reset
  | Estado.q1 =>
      if simbolo = 't' then
        { d with cont_t := d.cont_t + 1,
                 estado := if d.cont_t + 1 = 2 then Estado.q2 else Estado.q1 }
      else
        let d1 := d.reset
        if simbolo = 't' then { d1 with cont_t := 1, estado := Estado.q1 }
        else d1
  | Estado.q2 =>
      if simbolo = 't' then
        { d with cont_t := d.cont_t + 1,
                 estado := if 3 ≤ d.cont_t + 1 then Estado.q3 else Estado.q2 }
      else
        let d1 := d.reset
        if simbolo = 't' then { d1 with cont_t := 1, estado := Estado.q1 }
        else d1
  | Estado.q3 =>
      if simbolo = 'h' then { d with cont_h := 1, estado := Estado.q4 }
      else if simbolo = 't' then { d with cont_t := d.cont_t + 1, estado := Estado.q3 }
      else d.reset
  | Estado.q4 =>
      if simbolo = 'h' then
        { d with cont_h := d.cont_h + 1,
                 estado := if 2 ≤ d.cont_h + 1 then Estado.q_accept else Estado.q4 }
      else if simbolo = 't' then
        { d with cont_t := 1, cont_h := 0, estado := Estado.q1 }
      else d.reset
  | Estado.q_accept => { d with estado := Estado.q_accept }

/-- The loop body of `DFA.run`: feed the symbols one at a time through `step`,
returning true as soon as the state is q_accept, and false at the end of the
sequence otherwise.  The returned record is the instance state after the call,
mirroring the mutation the Python loop performs on `self`. -/
def DFA.runFrom (d : DFA) : List Char → Bool × DFA
  | [] => (false, d)
  | s :: rest =>
      let d1 := d.step s
      if d1.estado = Estado.q_accept then (true, d1) else d1.runFrom rest

/-- `DFA.run`: calls `reset`, then consumes the sequence with early exit. -/
def DFA.run (d : DFA) (secuencia : List Char) : Bool × DFA :=
  d.reset.runFrom secuencia

/-- First while loop of `PDA.acepta`: push one marker per leading t, recording
in `visto_t` whether at least one t was consumed; returns the stack, the flag
and the unconsumed remainder of the sequence. -/
def PDA.bucle1 (pila : List Char) (visto_t : Bool) :
    List Char → List Char × Bool × List Char
  | [] => (pila, visto_t, [])
  | c :: rest =>
      if c = 't' then PDA.bucle1 ('T' :: pila) true rest
      else (pila, visto_t, c :: rest)

/-- Second while loop of `PDA.acepta`: pop one marker per leading h; `none`
models the early `return False` taken when a pop finds the stack empty. -/
def PDA.bucle2 (pila : List Char) : List Char → Option (List Char × List Char)
  | [] => some (pila, [])
  | c :: rest =>
      if c = 'h' then
        match pila with
        | [] => none
        | _ :: p => PDA.bucle2 p rest
      else some (pila, c :: rest)

/-- `PDA.acepta`, translated from the Python source.  The Python list `pila`
grows and shrinks at one end; it is modelled here as a list used at its head. -/
def PDA.acepta (secuencia : List Char) : Bool :=
  let res1 := PDA.bucle1 [] false secuencia
  match PDA.bucle2 res1.1 res1.2.2 with
  | none => false
  | some res2 => res1.2.1 && res2.1.isEmpty && res2.2.isEmpty

/-- Length of the run of copies of `c` at the head of a list. -/
def countLeading (c : Char) : List Char → Nat
  | [] => 0
  | x :: xs => if x = c then countLeading c xs + 1 else 0

/-- Model of `re.finditer` for a pattern of the shape c1-at-least-m1 followed
by c2-at-least-m2: scan left to right; at each position take the maximal run
of c1 and then the maximal run of c2; if both meet their thresholds, emit the
greedy match and resume after it, otherwise advance one symbol.  Both regexes
in the source have m1 at least 1, so the extra conjunct `1 ≤ a` is redundant
for them and only serves the termination argument. -/
def finditer (c1 c2 : Char) (m1 m2 : Nat) : List Char → List (List Char)
  | [] => []
  | x :: xs =>
      let a := countLeading c1 (x :: xs)
      let b := countLeading c2 (List.drop a (x :: xs))
      if h : 1 ≤ a ∧ m1 ≤ a ∧ m2 ≤ b then
        (List.replicate a c1 ++ List.replicate b c2)
          :: finditer c1 c2 m1 m2 (List.drop (a + b) (x :: xs))
      else
        finditer c1 c2 m1 m2 xs
termination_by s => s.length
decreasing_by
  · simp only [List.length_drop, List.length_cons]
    omega
  · simp only [List.length_cons]
    omega

/-- `detectar_patrones`: the drought matches (pattern t-at-least-3 then
h-at-least-2) and the flood matches (pattern r-at-least-2 then x-at-least-3),
returned as a pair instead of the Python dict. -/
def detectar_patrones (secuencia : List Char) :
    List (List Char) × List (List Char) :=
  (finditer 't' 'h' 3 2 secuencia, finditer 'r' 'x' 2 3 secuencia)

/-- Specification predicate: the sequence contains, somewhere, a contiguous
run of at least 3 t immediately followed by at least 2 h — exactly the
sequences on which the regex for drought matches at least once. -/
def matchesDrought (s : List Char) : Prop :=
  ∃ (u : List Char) (a b : Nat) (v : List Char),
    3 ≤ a ∧ 2 ≤ b ∧
    s = u ++ List.replicate a 't' ++ List.replicate b 'h' ++ v

/-- The consumed input ends in exactly `k` copies of t. -/
def EndsT (p : List Char) (k : Nat) : Prop :=
  ∃ u : List Char, u.getLast? ≠ some 't' ∧ p = u ++ List.replicate k 't'

/-- The consumed input ends in a run of at least 3 t followed by a nonempty
run of h: one more h would complete a drought match. -/
def EndsTH (p : List Char) : Prop :=
  ∃ (u : List Char) (a b : Nat),
    3 ≤ a ∧ 1 ≤ b ∧
    p = u ++ List.replicate a 't' ++ List.replicate b 'h'

/-- The state invariant of the DFA: what each value of `estado` says about the
input consumed since the last reset, together with the counter constraints. -/
def Inv (p : List Char) (d : DFA) : Prop :=
  match d.estado with
  | Estado.q0 =>
      d.cont_t = 0 ∧ d.cont_h = 0 ∧ p.getLast? ≠ some 't' ∧
      ¬ EndsTH p ∧ ¬ matchesDrought p
  | Estado.q1 => d.cont_t = 1 ∧ d.cont_h = 0 ∧ EndsT p 1 ∧ ¬ matchesDrought p
  | Estado.q2 => d.cont_t = 2 ∧ d.cont_h = 0 ∧ EndsT p 2 ∧ ¬ matchesDrought p
  | Estado.q3 =>
      3 ≤ d.cont_t ∧ d.cont_h = 0 ∧ EndsT p d.cont_t ∧ ¬ matchesDrought p
  | Estado.q4 =>
      3 ≤ d.cont_t ∧ d.cont_h = 1 ∧
      (∃ (u : List Char) (a : Nat),
        3 ≤ a ∧ p = u ++ List.replicate a 't' ++ ['h']) ∧
      ¬ matchesDrought p
  | Estado.q_accept => matchesDrought p

/-- `DFA.step` with the two unreachable inner checks of the q1 and q2 else
branches removed: those branches simply reset. -/
def DFA.stepSinMuertos (d : DFA) (simbolo : Char) : DFA :=
  match d.estado with
  | Estado.q0 =>
      if simbolo = 't' then { d with cont_t := 1, estado := Estado.q1 }
      else d.reset
  | Estado.q1 =>
      if simbolo = 't' then
        { d with cont_t := d.cont_t + 1,
                 estado := if d.cont_t + 1 = 2 then Estado.q2 else Estado.q1 }
      else d.reset
  | Estado.q2 =>
      if simbolo = 't' then
        { d with cont_t := d.cont_t + 1,
                 estado := if 3 ≤ d.cont_t + 1 then Estado.q3 else Estado.q2 }
      else d.reset
  | Estado.q3 =>
      if simbolo = 'h' then { d with cont_h := 1, estado := Estado.q4 }
      else if simbolo = 't' then { d with cont_t := d.cont_t + 1, estado := Estado.q3 }
      else d.reset
  | Estado.q4 =>
      if simbolo = 'h' then
        { d with cont_h := d.cont_h + 1,
                 estado := if 2 ≤ d.cont_h + 1 then Estado.q_accept else Estado.q4 }
      else if simbolo = 't' then
        { d with cont_t := 1, cont_h := 0, estado := Estado.q1 }
      else d.reset
  | Estado.q_accept => { d with estado := Estado.q_accept }

/-! ### Helper lemmas about lists -/

theorem snoc_inj {α : Type} {xs ys : List α} {x y : α}
    (h : xs ++ [x] = ys ++ [y]) : xs = ys ∧ x = y := by
  have h2 := List.append_inj' h rfl
  exact ⟨h2.1, by simpa using h2.2⟩

theorem matchesDrought_append (p q : List Char) (h : matchesDrought p) :
    matchesDrought (p ++ q) := by
  obtain ⟨u, a, b, v, ha, hb, rfl⟩ := h
  exact ⟨u, a, b, v ++ q, ha, hb, by simp⟩

theorem endsTH_ends_h {p : List Char} (h : EndsTH p) :
    ∃ q : List Char, p = q ++ ['h'] := by
  obtain ⟨u, a, b, _, hb, rfl⟩ := h
  obtain ⟨b1, rfl⟩ : ∃ b1, b = b1 + 1 := ⟨b - 1, by omega⟩
  exact ⟨u ++ List.replicate a 't' ++ List.replicate b1 'h',
    by simp [List.replicate_succ', List.append_assoc]⟩

theorem endsT_ends_t {p : List Char} {k : Nat} (h : EndsT p k) (hk : 1 ≤ k) :
    ∃ q : List Char, p = q ++ ['t'] := by
  obtain ⟨u, _, rfl⟩ := h
  obtain ⟨k1, rfl⟩ : ∃ k1, k = k1 + 1 := ⟨k - 1, by omega⟩
  exact ⟨u ++ List.replicate k1 't',
    by simp [List.replicate_succ', List.append_assoc]⟩

theorem matchesDrought_snoc (p : List Char) (c : Char) :
    matchesDrought (p ++ [c]) ↔ matchesDrought p ∨ (c = 'h' ∧ EndsTH p) := by
  constructor
  · rintro ⟨u, a, b, v, ha, hb, heq⟩
    rcases List.eq_nil_or_concat' v with rfl | ⟨v1, x, rfl⟩
    · obtain ⟨b1, rfl⟩ : ∃ b1, b = b1 + 1 := ⟨b - 1, by omega⟩
      have heq2 : p ++ [c] =
          (u ++ List.replicate a 't' ++ List.replicate b1 'h') ++ ['h'] := by
        simpa [List.replicate_succ', List.append_assoc] using heq
      obtain ⟨rfl, rfl⟩ := snoc_inj heq2
      exact Or.inr ⟨rfl, u, a, b1, ha, by omega, rfl⟩
    · have heq2 : p ++ [c] =
          (u ++ List.replicate a 't' ++ List.replicate b 'h' ++ v1) ++ [x] := by
        simpa [List.append_assoc] using heq
      obtain ⟨rfl, rfl⟩ := snoc_inj heq2
      exact Or.inl ⟨u, a, b, v1, ha, hb, by simp [List.append_assoc]⟩
  · rintro (hm | ⟨rfl, u, a, b, ha, hb, rfl⟩)
    · exact matchesDrought_append p [c] hm
    · exact ⟨u, a, b + 1, [], ha, by omega,
        by simp [List.replicate_succ', List.append_assoc]⟩

theorem ends_t_le {u w : List Char} {k a : Nat}
    (hu : u.getLast? ≠ some 't')
    (h : u ++ List.replicate k 't' = w ++ List.replicate a 't') : a ≤ k := by
  by_contra hlt
  push_neg at hlt
  have ha : a = (a - k) + k := by omega
  rw [ha, List.replicate_add] at h
  have h3 : u ++ List.replicate k 't' =
      (w ++ List.replicate (a - k) 't') ++ List.replicate k 't' := by
    simpa [List.append_assoc] using h
  have h2 : u = w ++ List.replicate (a - k) 't' :=
    List.append_cancel_right h3
  obtain ⟨m, hm⟩ : ∃ m, a - k = m + 1 := ⟨a - k - 1, by omega⟩
  rw [hm, List.replicate_succ'] at h2
  apply hu
  rw [h2, ← List.append_assoc]
  exact List.getLast?_concat _

theorem matchesDrought_nil : ¬ matchesDrought [] := by
  rintro ⟨u, a, b, v, ha, hb, heq⟩
  have := congrArg List.length heq
  simp at this
  omega

theorem endsTH_nil : ¬ EndsTH [] := by
  rintro ⟨u, a, b, ha, hb, heq⟩
  have := congrArg List.length heq
  simp at this
  omega

/-! ### The easy facts about run, step and acepta -/

theorem step_accept (d : DFA) (c : Char) (h : d.estado = Estado.q_accept) :
    (DFA.step d c).estado = Estado.q_accept := by
  obtain ⟨e, ct, ch⟩ := d
  simp only at h
  subst h
  rfl

theorem foldl_step_accept (d : DFA) (s : List Char)
    (h : d.estado = Estado.q_accept) :
    (List.foldl DFA.step d s).estado = Estado.q_accept := by
  induction s generalizing d with
  | nil => exact h
  | cons c rest ih => exact ih _ (step_accept d c h)

theorem runFrom_eq_foldl (d : DFA) (s : List Char)
    (h : d.estado ≠ Estado.q_accept) :
    ((DFA.runFrom d s).1 = true ↔
      (List.foldl DFA.step d s).estado = Estado.q_accept) := by
  induction s generalizing d with
  | nil => simpa [DFA.runFrom] using h
  | cons c rest ih =>
      by_cases hacc : (DFA.step d c).estado = Estado.q_accept
      · simp [DFA.runFrom, hacc, foldl_step_accept _ _ hacc]
      · simp [DFA.runFrom, hacc, ih _ hacc]

theorem runFrom_state_iff (d : DFA) (s : List Char)
    (h : d.estado ≠ Estado.q_accept) :
    ((DFA.runFrom d s).2.estado = Estado.q_accept ↔
      (DFA.runFrom d s).1 = true) := by
  induction s generalizing d with
  | nil => simp [DFA.runFrom, h]
  | cons c rest ih =>
      by_cases hacc : (DFA.step d c).estado = Estado.q_accept
      · simp [DFA.runFrom, hacc]
      · simp [DFA.runFrom, hacc, ih _ hacc]

theorem runFrom_append_true (d : DFA) (s s2 : List Char)
    (h : (DFA.runFrom d s).1 = true) :
    (DFA.runFrom d (s ++ s2)).1 = true := by
  induction s generalizing d with
  | nil => simp [DFA.runFrom] at h
  | cons c rest ih =>
      by_cases hacc : (DFA.step d c).estado = Estado.q_accept
      · simp [DFA.runFrom, hacc]
      · simp [DFA.runFrom, hacc] at h ⊢
        exact ih _ h

/-- C3: `DFA.run` is history independent across calls on the same instance:
since `run` calls `reset` before consuming input, running `s1` first and then
`s2` gives, for `s2`, the same result (and final state) as running `s2` on a
freshly constructed instance. -/
theorem run_history_independent (d : DFA) (s1 s2 : List Char) :
    DFA.run (DFA.run d s1).2 s2 = DFA.run DFA.nuevo s2 := rfl

/-- C4: the accept state is absorbing: `step` never leaves q_accept, and
consequently once `run` returns true on `s`, it returns true on every
extension `s ++ s2` of `s`. -/
theorem accept_absorbing :
    (∀ (d : DFA) (c : Char), d.estado = Estado.q_accept →
        (DFA.step d c).estado = Estado.q_accept) ∧
    (∀ (d : DFA) (s s2 : List Char), (DFA.run d s).1 = true →
        (DFA.run d (s ++ s2)).1 = true) :=
  ⟨step_accept, fun _ s s2 h => runFrom_append_true _ s s2 h⟩

theorem accept_absorbing_witness :
    (DFA.step ⟨Estado.q_accept, 3, 2⟩ 'x').estado = Estado.q_accept ∧
    (DFA.run DFA.nuevo (['t', 't', 't', 'h', 'h'] ++ ['x', 'x'])).1 = true :=
  ⟨accept_absorbing.1 ⟨Estado.q_accept, 3, 2⟩ 'x' rfl,
   accept_absorbing.2 DFA.nuevo ['t', 't', 't', 'h', 'h'] ['x', 'x'] (by decide)⟩

/-- C6: the two post-reset re-consumption branches inside the non-t else
branches of states q1 and q2 are dead code: `step` coincides, on every
configuration and every symbol, with the variant that removes them. -/
theorem step_dead_code (d : DFA) (c : Char) :
    DFA.step d c = DFA.stepSinMuertos d c := by
  obtain ⟨e, ct, ch⟩ := d
  cases e <;> by_cases hc : c = 't' <;>
    simp [DFA.step, DFA.stepSinMuertos, hc]

/-- C7: the empty sequence is a valid input everywhere: `run` returns false,
`acepta` returns false, and `detectar_patrones` returns empty match lists for
both patterns; every operation is total, so none can raise an error. -/
theorem empty_input_ok (d : DFA) :
    (DFA.run d []).1 = false ∧ PDA.acepta [] = false ∧
    detectar_patrones [] = ([], []) := by
  refine ⟨rfl, rfl, ?_⟩
  simp [detectar_patrones, finditer]

/-- C8: `DFA.run` and `PDA.acepta` are total: on every finite sequence over
the unrestricted alphabet they are defined and yield one of the two boolean
values (the O(n) running time is a resource property outside this embedding). -/
theorem run_acepta_total (d : DFA) (s : List Char) :
    ((DFA.run d s).1 = true ∨ (DFA.run d s).1 = false) ∧
    (PDA.acepta s = true ∨ PDA.acepta s = false) :=
  ⟨by cases h : (DFA.run d s).1 <;> simp [h],
   by cases h : PDA.acepta s <;> simp [h]⟩

/-- C9: the concrete cases listed in the spec, evaluated on the embedding. -/
theorem concrete_examples :
    (DFA.run DFA.nuevo ['x', 'x', 't', 't', 't', 'h', 'h', 'x', 'x']).1 = true ∧
    (DFA.run DFA.nuevo ['t', 't', 't', 'h']).1 = false ∧
    (DFA.run DFA.nuevo ['t', 't', 't', 't', 'h', 'h', 'h', 'h']).1 = true ∧
    PDA.acepta ['t', 't', 't', 'h', 'h', 'h'] = true ∧
    PDA.acepta ['t', 't', 'h'] = false ∧
    PDA.acepta ['x', 't', 'h'] = false ∧
    PDA.acepta [] = false := by
  decide

/-- C10: after `run` returns, the instance is in state q_accept exactly when
the returned boolean is true: on success `run` exits immediately in the
accepting state, and on failure the full sequence leaves the instance in some
non-accepting state. -/
theorem run_state_iff_true (d : DFA) (s : List Char) :
    ((DFA.run d s).2.estado = Estado.q_accept ↔ (DFA.run d s).1 = true) :=
  runFrom_state_iff _ s (by simp [DFA.reset])

/-! ### Correctness of the PDA -/

theorem countLeading_decomp (c : Char) (s : List Char) :
    s = List.replicate (countLeading c s) c ++ List.drop (countLeading c s) s ∧
    (List.drop (countLeading c s) s).head? ≠ some c := by
  induction s with
  | nil => simp [countLeading]
  | cons x xs ih =>
      by_cases hx : x = c
      · subst hx
        simp only [countLeading, if_pos rfl]
        refine ⟨?_, by simpa using ih.2⟩
        conv_lhs => rw [ih.1]
        simp [List.replicate_succ]
      · simp [countLeading, hx, Ne.symm hx]

theorem countLeading_replicate_append (c : Char) (n : Nat) (r : List Char)
    (hr : r.head? ≠ some c) :
    countLeading c (List.replicate n c ++ r) = n := by
  induction n with
  | zero =>
      cases r with
      | nil => rfl
      | cons x xs =>
          have hx : x ≠ c := by simpa using hr
          simp [countLeading, hx]
  | succ n ih => simp [List.replicate_succ, countLeading, ih]

theorem bucle1_cons_t (pila : List Char) (visto : Bool) (xs : List Char) :
    PDA.bucle1 pila visto ('t' :: xs) = PDA.bucle1 ('T' :: pila) true xs := by
  rw [PDA.bucle1.eq_def]
  simp

theorem bucle1_cons_ne (pila : List Char) (visto : Bool) (x : Char)
    (xs : List Char) (hx : x ≠ 't') :
    PDA.bucle1 pila visto (x :: xs) = (pila, visto, x :: xs) := by
  rw [PDA.bucle1.eq_def]
  simp [hx]

theorem bucle1_replicate (pila : List Char) (visto : Bool) (k : Nat)
    (r : List Char) (hr : r.head? ≠ some 't') :
    PDA.bucle1 pila visto (List.replicate k 't' ++ r) =
      (List.replicate k 'T' ++ pila, visto || decide (1 ≤ k), r) := by
  induction k generalizing pila visto with
  | zero =>
      cases r with
      | nil => simp [PDA.bucle1]
      | cons x xs =>
          have hx : x ≠ 't' := by simpa using hr
          simpa using bucle1_cons_ne pila visto x xs hx
  | succ k ih =>
      rw [List.replicate_succ, List.cons_append, bucle1_cons_t,
        ih ('T' :: pila) true]
      have h1 : decide (1 ≤ k + 1) = true := decide_eq_true (by omega)
      rw [h1, Bool.or_true, Bool.true_or, List.replicate_succ' k 'T']
      simp [List.append_assoc]

theorem bucle2_cons_h_nil (xs : List Char) :
    PDA.bucle2 [] ('h' :: xs) = none := by
  rw [PDA.bucle2.eq_def]
  simp

theorem bucle2_cons_h_cons (p : Char) (ps xs : List Char) :
    PDA.bucle2 (p :: ps) ('h' :: xs) = PDA.bucle2 ps xs := by
  rw [PDA.bucle2.eq_def]
  simp

theorem bucle2_cons_ne (pila : List Char) (x : Char) (xs : List Char)
    (hx : x ≠ 'h') :
    PDA.bucle2 pila (x :: xs) = some (pila, x :: xs) := by
  rw [PDA.bucle2.eq_def]
  simp [hx]

theorem bucle2_replicate (m : Nat) (pila r2 : List Char)
    (h2 : r2.head? ≠ some 'h') :
    PDA.bucle2 pila (List.replicate m 'h' ++ r2) =
      if m ≤ pila.length then some (pila.drop m, r2) else none := by
  induction m generalizing pila with
  | zero =>
      cases r2 with
      | nil => simp [PDA.bucle2]
      | cons x xs =>
          have hx : x ≠ 'h' := by simpa using h2
          simpa using bucle2_cons_ne pila x xs hx
  | succ m ih =>
      rw [List.replicate_succ, List.cons_append]
      cases pila with
      | nil => simpa using bucle2_cons_h_nil (List.replicate m 'h' ++ r2)
      | cons p ps =>
          rw [bucle2_cons_h_cons, ih ps]
          simp [Nat.succ_le_succ_iff]

theorem drop_replicate_char (c : Char) (n m : Nat) :
    List.drop m (List.replicate n c) = List.replicate (n - m) c := by
  induction m generalizing n with
  | zero => simp
  | succ m ih =>
      cases n with
      | zero => simp
      | succ n => simpa [List.replicate_succ] using ih n

theorem replicate_head_ne (c x : Char) (m : Nat) (hne : c ≠ x) :
    (List.replicate m c).head? ≠ some x := by
  cases m with
  | zero => simp
  | succ m =>
      simp [List.replicate_succ]
      exact hne

theorem acepta_closed (k m : Nat) (r2 : List Char)
    (hh1 : (List.replicate m 'h' ++ r2).head? ≠ some 't')
    (hh2 : r2.head? ≠ some 'h') :
    (PDA.acepta (List.replicate k 't' ++ (List.replicate m 'h' ++ r2)) = true)
      ↔ (1 ≤ k ∧ m = k ∧ r2 = []) := by
  unfold PDA.acepta
  rw [bucle1_replicate [] false k (List.replicate m 'h' ++ r2) hh1]
  simp only
  rw [bucle2_replicate m (List.replicate k 'T' ++ []) r2 hh2]
  simp only [List.append_nil, List.length_replicate]
  by_cases hle : m ≤ k
  · rw [if_pos hle]
    simp only [drop_replicate_char, Bool.false_or, Bool.and_eq_true,
      List.isEmpty_iff, List.replicate_eq_nil_iff, decide_eq_true_eq]
    constructor
    · rintro ⟨⟨h1, h2⟩, h3⟩
      exact ⟨h1, by omega, h3⟩
    · rintro ⟨h1, h2, h3⟩
      exact ⟨⟨h1, by omega⟩, h3⟩
  · rw [if_neg hle]
    constructor
    · intro h
      simp at h
    · rintro ⟨h1, rfl, h3⟩
      omega

theorem acepta_true_decomp {s : List Char} {k m : Nat} {r r2 : List Char}
    (hs : s = List.replicate k 't' ++ r)
    (hhead : r.head? ≠ some 't')
    (hr2 : r = List.replicate m 'h' ++ r2)
    (hhead2 : r2.head? ≠ some 'h')
    (hacc : PDA.acepta s = true) :
    ∃ n : Nat, 1 ≤ n ∧ s = List.replicate n 't' ++ List.replicate n 'h' := by
  subst hr2
  rw [hs] at hacc
  rw [acepta_closed k m r2 hhead hhead2] at hacc
  obtain ⟨h1, rfl, rfl⟩ := hacc
  exact ⟨m, h1, by simpa using hs⟩

theorem acepta_iff (s : List Char) :
    PDA.acepta s = true ↔
      ∃ n : Nat, 1 ≤ n ∧ s = List.replicate n 't' ++ List.replicate n 'h' := by
  constructor
  · intro hacc
    obtain ⟨hs, hhead⟩ := countLeading_decomp 't' s
    obtain ⟨hr2, hhead2⟩ :=
      countLeading_decomp 'h' (List.drop (countLeading 't' s) s)
    exact acepta_true_decomp hs hhead hr2 hhead2 hacc
  · rintro ⟨n, hn, hsn⟩
    have h0 : (List.replicate n 'h' ++ ([] : List Char)).head? ≠ some 't' := by
      simpa using replicate_head_ne 'h' 't' n (by decide)
    have h1 := (acepta_closed n n [] h0 (by simp)).mpr ⟨hn, rfl, rfl⟩
    simpa [hsn] using h1

/-- C2: `PDA.acepta` accepts exactly the sequences of n copies of t followed
by n copies of h for some n at least 1; in particular it accepts every such
balanced sequence and rejects every unbalanced block pair. -/
theorem acepta_spec :
    (∀ s : List Char, PDA.acepta s = true ↔
        ∃ n : Nat, 1 ≤ n ∧ s = List.replicate n 't' ++ List.replicate n 'h') ∧
    (∀ n : Nat, 1 ≤ n →
        PDA.acepta (List.replicate n 't' ++ List.replicate n 'h') = true) ∧
    (∀ n m : Nat, n ≠ m →
        PDA.acepta (List.replicate n 't' ++ List.replicate m 'h') = false) := by
  refine ⟨acepta_iff, fun n hn => (acepta_iff _).mpr ⟨n, hn, rfl⟩, ?_⟩
  intro n m hnm
  by_contra hacc
  have htrue : PDA.acepta (List.replicate n 't' ++ List.replicate m 'h') = true := by
    cases h : PDA.acepta (List.replicate n 't' ++ List.replicate m 'h')
    · exact absurd h hacc
    · rfl
  obtain ⟨j, hj, heq⟩ := (acepta_iff _).mp htrue
  have hn_j : n = j := by
    have h1 := countLeading_replicate_append 't' n (List.replicate m 'h')
      (replicate_head_ne 'h' 't' m (by decide))
    have h2 := countLeading_replicate_append 't' j (List.replicate j 'h')
      (replicate_head_ne 'h' 't' j (by decide))
    rw [heq, h2] at h1
    exact h1.symm
  have hm_j : m = j := by
    subst hn_j
    have := List.append_cancel_left heq
    have hlen := congrArg List.length this
    simpa using hlen
  omega

theorem acepta_spec_witness :
    PDA.acepta (List.replicate 2 't' ++ List.replicate 2 'h') = true ∧
    PDA.acepta (List.replicate 2 't' ++ List.replicate 1 'h') = false :=
  ⟨acepta_spec.2.1 2 (by decide), acepta_spec.2.2 2 1 (by decide)⟩

/-! ### The DFA state invariant -/

theorem endsT_snoc_t {p : List Char} {k : Nat} (h : EndsT p k) :
    EndsT (p ++ ['t']) (k + 1) := by
  obtain ⟨u, hu, rfl⟩ := h
  exact ⟨u, hu, by rw [List.replicate_succ', ← List.append_assoc]⟩

theorem endsT_bound {p : List Char} {k : Nat} (h : EndsT p k)
    {u : List Char} {a : Nat} (hp : p = u ++ List.replicate a 't') : a ≤ k := by
  obtain ⟨w, hw, rfl⟩ := h
  exact ends_t_le hw hp

theorem endsT_not_endsTH {p : List Char} {k : Nat} (h : EndsT p k)
    (hk : 1 ≤ k) : ¬ EndsTH p := by
  intro hE
  obtain ⟨q1, hq1⟩ := endsT_ends_t h hk
  obtain ⟨q2, hq2⟩ := endsTH_ends_h hE
  rw [hq1] at hq2
  exact absurd (snoc_inj hq2).2 (by decide)

theorem endsTH_snoc {p : List Char} {c : Char} (h : EndsTH (p ++ [c])) :
    EndsTH p ∨ (∃ (u : List Char) (a : Nat),
      3 ≤ a ∧ p = u ++ List.replicate a 't') := by
  obtain ⟨u, a, b, ha, hb, heq⟩ := h
  obtain ⟨b1, rfl⟩ : ∃ b1, b = b1 + 1 := ⟨b - 1, by omega⟩
  have heq2 : p ++ [c] =
      (u ++ List.replicate a 't' ++ List.replicate b1 'h') ++ ['h'] := by
    simpa [List.replicate_succ', List.append_assoc] using heq
  obtain ⟨rfl, rfl⟩ := snoc_inj heq2
  by_cases hb1 : b1 = 0
  · subst hb1
    exact Or.inr ⟨u, a, ha, by simp⟩
  · exact Or.inl ⟨u, a, b1, ha, by omega, rfl⟩

theorem not_endsTH_snoc_ne_h {p : List Char} {c : Char} (hc : c ≠ 'h') :
    ¬ EndsTH (p ++ [c]) := by
  intro hE
  obtain ⟨q, hq⟩ := endsTH_ends_h hE
  exact hc (snoc_inj hq).2

theorem not_matches_snoc_ne_h {p : List Char} {c : Char} (hc : c ≠ 'h')
    (hM : ¬ matchesDrought p) : ¬ matchesDrought (p ++ [c]) := by
  rw [matchesDrought_snoc]
  rintro (hm | ⟨hch, _⟩)
  · exact hM hm
  · exact hc hch

theorem not_matches_snoc_not_endsTH {p : List Char} {c : Char}
    (hTH : ¬ EndsTH p) (hM : ¬ matchesDrought p) :
    ¬ matchesDrought (p ++ [c]) := by
  rw [matchesDrought_snoc]
  rintro (hm | ⟨_, hE⟩)
  · exact hM hm
  · exact hTH hE

theorem lastne_not_rep {p u : List Char} {a : Nat}
    (hlast : p.getLast? ≠ some 't') (ha : 1 ≤ a)
    (hp : p = u ++ List.replicate a 't') : False := by
  obtain ⟨a1, rfl⟩ : ∃ a1, a = a1 + 1 := ⟨a - 1, by omega⟩
  apply hlast
  rw [hp, List.replicate_succ', ← List.append_assoc]
  exact List.getLast?_concat _

theorem inv_step (p : List Char) (c : Char) (d : DFA) (h : Inv p d) :
    Inv (p ++ [c]) (DFA.step d c) := by
  obtain ⟨e, ct, ch⟩ := d
  cases e with
  | q0 =>
      obtain ⟨hct, hch, hlast, hTH, hM⟩ := h
      simp only at hct hch
      subst hct
      subst hch
      by_cases hc : c = 't'
      · subst hc
        show 1 = 1 ∧ 0 = 0 ∧ EndsT (p ++ ['t']) 1 ∧
          ¬ matchesDrought (p ++ ['t'])
        exact ⟨rfl, rfl, ⟨p, hlast, by simp⟩,
          not_matches_snoc_ne_h (by decide) hM⟩
      · have hstep : DFA.step ⟨Estado.q0, 0, 0⟩ c = ⟨Estado.q0, 0, 0⟩ := by
          simp [DFA.step, DFA.reset, hc]
        rw [hstep]
        show 0 = 0 ∧ 0 = 0 ∧ (p ++ [c]).getLast? ≠ some 't' ∧
          ¬ EndsTH (p ++ [c]) ∧ ¬ matchesDrought (p ++ [c])
        refine ⟨rfl, rfl, by simp [List.getLast?_concat, hc], ?_,
          not_matches_snoc_not_endsTH hTH hM⟩
        intro hE
        rcases endsTH_snoc hE with hE1 | ⟨u, a, ha, hp⟩
        · exact hTH hE1
        · exact lastne_not_rep hlast (by omega) hp
  | q1 =>
      obtain ⟨hct, hch, hET, hM⟩ := h
      simp only at hct hch
      subst hct
      subst hch
      by_cases hc : c = 't'
      · subst hc
        show 2 = 2 ∧ 0 = 0 ∧ EndsT (p ++ ['t']) 2 ∧
          ¬ matchesDrought (p ++ ['t'])
        exact ⟨rfl, rfl, endsT_snoc_t hET,
          not_matches_snoc_ne_h (by decide) hM⟩
      · have hstep : DFA.step ⟨Estado.q1, 1, 0⟩ c = ⟨Estado.q0, 0, 0⟩ := by
          simp [DFA.step, DFA.reset, hc]
        rw [hstep]
        show 0 = 0 ∧ 0 = 0 ∧ (p ++ [c]).getLast? ≠ some 't' ∧
          ¬ EndsTH (p ++ [c]) ∧ ¬ matchesDrought (p ++ [c])
        refine ⟨rfl, rfl, by simp [List.getLast?_concat, hc], ?_,
          not_matches_snoc_not_endsTH (endsT_not_endsTH hET (by omega)) hM⟩
        intro hE
        rcases endsTH_snoc hE with hE1 | ⟨u, a, ha, hp⟩
        · exact endsT_not_endsTH hET (by omega) hE1
        · have hle := endsT_bound hET hp
          omega
  | q2 =>
      obtain ⟨hct, hch, hET, hM⟩ := h
      simp only at hct hch
      subst hct
      subst hch
      by_cases hc : c = 't'
      · subst hc
        show 3 ≤ 3 ∧ 0 = 0 ∧ EndsT (p ++ ['t']) 3 ∧
          ¬ matchesDrought (p ++ ['t'])
        exact ⟨by omega, rfl, endsT_snoc_t hET,
          not_matches_snoc_ne_h (by decide) hM⟩
      · have hstep : DFA.step ⟨Estado.q2, 2, 0⟩ c = ⟨Estado.q0, 0, 0⟩ := by
          simp [DFA.step, DFA.reset, hc]
        rw [hstep]
        show 0 = 0 ∧ 0 = 0 ∧ (p ++ [c]).getLast? ≠ some 't' ∧
          ¬ EndsTH (p ++ [c]) ∧ ¬ matchesDrought (p ++ [c])
        refine ⟨rfl, rfl, by simp [List.getLast?_concat, hc], ?_,
          not_matches_snoc_not_endsTH (endsT_not_endsTH hET (by omega)) hM⟩
        intro hE
        rcases endsTH_snoc hE with hE1 | ⟨u, a, ha, hp⟩
        · exact endsT_not_endsTH hET (by omega) hE1
        · have hle := endsT_bound hET hp
          omega
  | q3 =>
      obtain ⟨hct, hch, hET, hM⟩ := h
      simp only at hct hch hET
      subst hch
      by_cases hch2 : c = 'h'
      · subst hch2
        show 3 ≤ ct ∧ 1 = 1 ∧
          (∃ (u : List Char) (a : Nat),
            3 ≤ a ∧ p ++ ['h'] = u ++ List.replicate a 't' ++ ['h']) ∧
          ¬ matchesDrought (p ++ ['h'])
        refine ⟨hct, rfl, ?_, not_matches_snoc_not_endsTH
          (endsT_not_endsTH hET (by omega)) hM⟩
        obtain ⟨u, hu, rfl⟩ := hET
        exact ⟨u, ct, hct, rfl⟩
      · by_cases hc : c = 't'
        · subst hc
          have hstep : DFA.step ⟨Estado.q3, ct, 0⟩ 't' = ⟨Estado.q3, ct + 1, 0⟩ := by
            simp [DFA.step]
          rw [hstep]
          show 3 ≤ ct + 1 ∧ 0 = 0 ∧ EndsT (p ++ ['t']) (ct + 1) ∧
            ¬ matchesDrought (p ++ ['t'])
          exact ⟨by omega, rfl, endsT_snoc_t hET,
            not_matches_snoc_ne_h (by decide) hM⟩
        · have hstep : DFA.step ⟨Estado.q3, ct, 0⟩ c = ⟨Estado.q0, 0, 0⟩ := by
            simp [DFA.step, DFA.reset, hch2, hc]
          rw [hstep]
          show 0 = 0 ∧ 0 = 0 ∧ (p ++ [c]).getLast? ≠ some 't' ∧
            ¬ EndsTH (p ++ [c]) ∧ ¬ matchesDrought (p ++ [c])
          exact ⟨rfl, rfl, by simp [List.getLast?_concat, hc],
            not_endsTH_snoc_ne_h hch2, not_matches_snoc_ne_h hch2 hM⟩
  | q4 =>
      obtain ⟨hct, hch, hshape, hM⟩ := h
      simp only at hct hch hshape
      subst hch
      by_cases hch2 : c = 'h'
      · subst hch2
        show matchesDrought (p ++ ['h'])
        obtain ⟨u, a, ha, hp⟩ := hshape
        refine ⟨u, a, 2, [], ha, by omega, ?_⟩
        rw [hp]
        simp [List.append_assoc]
      · by_cases hc : c = 't'
        · subst hc
          have hstep : DFA.step ⟨Estado.q4, ct, 1⟩ 't' = ⟨Estado.q1, 1, 0⟩ := by
            simp [DFA.step]
          rw [hstep]
          show 1 = 1 ∧ 0 = 0 ∧ EndsT (p ++ ['t']) 1 ∧
            ¬ matchesDrought (p ++ ['t'])
          refine ⟨rfl, rfl, ⟨p, ?_, by simp⟩,
            not_matches_snoc_ne_h (by decide) hM⟩
          obtain ⟨u, a, ha, hp⟩ := hshape
          have hplast : p.getLast? = some 'h' := by
            rw [hp]
            exact List.getLast?_concat _
          simp [hplast]
        · have hstep : DFA.step ⟨Estado.q4, ct, 1⟩ c = ⟨Estado.q0, 0, 0⟩ := by
            simp [DFA.step, DFA.reset, hch2, hc]
          rw [hstep]
          show 0 = 0 ∧ 0 = 0 ∧ (p ++ [c]).getLast? ≠ some 't' ∧
            ¬ EndsTH (p ++ [c]) ∧ ¬ matchesDrought (p ++ [c])
          exact ⟨rfl, rfl, by simp [List.getLast?_concat, hc],
            not_endsTH_snoc_ne_h hch2, not_matches_snoc_ne_h hch2 hM⟩
  | q_accept =>
      show matchesDrought (p ++ [c])
      exact matchesDrought_append p [c] h

theorem inv_foldl (p : List Char) :
    Inv p (List.foldl DFA.step DFA.nuevo p) := by
  induction p using List.reverseRecOn with
  | nil =>
      show (0 : Nat) = 0 ∧ (0 : Nat) = 0 ∧
        ([] : List Char).getLast? ≠ some 't' ∧
        ¬ EndsTH [] ∧ ¬ matchesDrought []
      exact ⟨rfl, rfl, by simp, endsTH_nil, matchesDrought_nil⟩
  | append_singleton p c ih =>
      rw [List.foldl_append]
      exact inv_step p c _ ih

theorem foldl_accept_iff (s : List Char) :
    (List.foldl DFA.step DFA.nuevo s).estado = Estado.q_accept ↔
      matchesDrought s := by
  constructor
  · intro hacc
    have h := inv_foldl s
    simp only [Inv, hacc] at h
    exact h
  · intro hm
    have h := inv_foldl s
    by_contra hne
    cases hes : (List.foldl DFA.step DFA.nuevo s).estado with
    | q0 =>
        simp only [Inv, hes] at h
        exact h.2.2.2.2 hm
    | q1 =>
        simp only [Inv, hes] at h
        exact h.2.2.2 hm
    | q2 =>
        simp only [Inv, hes] at h
        exact h.2.2.2 hm
    | q3 =>
        simp only [Inv, hes] at h
        exact h.2.2.2 hm
    | q4 =>
        simp only [Inv, hes] at h
        exact h.2.2.2 hm
    | q_accept => exact hne hes

/-- C5: in every configuration reachable from a freshly reset instance by
step calls, the counters satisfy the per-state constraints: q0 has both
counters zero, q1 has cont_t = 1, q2 has cont_t = 2, q3 has cont_t at least 3
and cont_h = 0, and q4 has cont_t at least 3 and cont_h = 1. -/
theorem counter_invariant (p : List Char) :
    ((List.foldl DFA.step DFA.nuevo p).estado = Estado.q0 →
        (List.foldl DFA.step DFA.nuevo p).cont_t = 0 ∧
        (List.foldl DFA.step DFA.nuevo p).cont_h = 0) ∧
    ((List.foldl DFA.step DFA.nuevo p).estado = Estado.q1 →
        (List.foldl DFA.step DFA.nuevo p).cont_t = 1) ∧
    ((List.foldl DFA.step DFA.nuevo p).estado = Estado.q2 →
        (List.foldl DFA.step DFA.nuevo p).cont_t = 2) ∧
    ((List.foldl DFA.step DFA.nuevo p).estado = Estado.q3 →
        3 ≤ (List.foldl DFA.step DFA.nuevo p).cont_t ∧
        (List.foldl DFA.step DFA.nuevo p).cont_h = 0) ∧
    ((List.foldl DFA.step DFA.nuevo p).estado = Estado.q4 →
        3 ≤ (List.foldl DFA.step DFA.nuevo p).cont_t ∧
        (List.foldl DFA.step DFA.nuevo p).cont_h = 1) := by
  refine ⟨?_, ?_, ?_, ?_, ?_⟩ <;> intro hes <;>
    have h := inv_foldl p <;> simp only [Inv, hes] at h
  · exact ⟨h.1, h.2.1⟩
  · exact h.1
  · exact h.1
  · exact ⟨h.1, h.2.1⟩
  · exact ⟨h.1, h.2.1⟩

theorem counter_invariant_witness :
    (List.foldl DFA.step DFA.nuevo ['t']).cont_t = 1 :=
  (counter_invariant ['t']).2.1 (by decide)

/-! ### The regex scanner finds a drought match exactly when one exists -/

theorem finditer_cons_eq (c1 c2 : Char) (m1 m2 : Nat) (x : Char)
    (xs : List Char) :
    finditer c1 c2 m1 m2 (x :: xs) =
      if 1 ≤ countLeading c1 (x :: xs) ∧ m1 ≤ countLeading c1 (x :: xs) ∧
          m2 ≤ countLeading c2 (List.drop (countLeading c1 (x :: xs)) (x :: xs)) then
        (List.replicate (countLeading c1 (x :: xs)) c1 ++
          List.replicate (countLeading c2
            (List.drop (countLeading c1 (x :: xs)) (x :: xs))) c2) ::
          finditer c1 c2 m1 m2
            (List.drop (countLeading c1 (x :: xs) + countLeading c2
              (List.drop (countLeading c1 (x :: xs)) (x :: xs))) (x :: xs))
      else finditer c1 c2 m1 m2 xs := by
  rw [finditer]
  rfl

theorem countLeading_cons_ne {c x : Char} (xs : List Char) (hx : x ≠ c) :
    countLeading c (x :: xs) = 0 := by
  simp [countLeading, hx]

theorem countLeading_replicate_add (c : Char) (n : Nat) (r : List Char) :
    countLeading c (List.replicate n c ++ r) = n + countLeading c r := by
  induction n with
  | zero => simp
  | succ n ih =>
      rw [List.replicate_succ, List.cons_append]
      simp [countLeading, ih]
      omega

theorem drop_replicate_append (c : Char) (n : Nat) (r : List Char) :
    List.drop n (List.replicate n c ++ r) = r := by
  induction n with
  | zero => simp
  | succ n ih => simpa [List.replicate_succ] using ih

theorem matchesDrought_cons (x : Char) {xs : List Char}
    (h : matchesDrought xs) : matchesDrought (x :: xs) := by
  obtain ⟨u, a, b, v, ha, hb, rfl⟩ := h
  exact ⟨x :: u, a, b, v, ha, hb, rfl⟩

theorem countLeading_matches {s : List Char}
    (h3 : 3 ≤ countLeading 't' s)
    (h2 : 2 ≤ countLeading 'h' (List.drop (countLeading 't' s) s)) :
    matchesDrought s := by
  obtain ⟨hs1, _⟩ := countLeading_decomp 't' s
  obtain ⟨hs2, _⟩ := countLeading_decomp 'h' (List.drop (countLeading 't' s) s)
  rw [hs2] at hs1
  exact ⟨[], countLeading 't' s,
    countLeading 'h' (List.drop (countLeading 't' s) s),
    List.drop (countLeading 'h' (List.drop (countLeading 't' s) s))
      (List.drop (countLeading 't' s) s),
    h3, h2, by simpa [List.append_assoc] using hs1⟩

theorem matches_head_cond {a b : Nat} {v s : List Char}
    (ha : 3 ≤ a) (hb : 2 ≤ b)
    (heq : s = List.replicate a 't' ++ (List.replicate b 'h' ++ v)) :
    countLeading 't' s = a ∧
    2 ≤ countLeading 'h' (List.drop (countLeading 't' s) s) := by
  obtain ⟨b1, rfl⟩ : ∃ b1, b = b1 + 1 := ⟨b - 1, by omega⟩
  have h0 : countLeading 't' (List.replicate (b1 + 1) 'h' ++ v) = 0 := by
    rw [List.replicate_succ, List.cons_append]
    exact countLeading_cons_ne _ (by decide)
  have hclt : countLeading 't' s = a := by
    rw [heq, countLeading_replicate_add, h0]
    omega
  refine ⟨hclt, ?_⟩
  rw [hclt, heq, drop_replicate_append, countLeading_replicate_add]
  omega

theorem matches_finditer_ne_nil {s : List Char} (hm : matchesDrought s) :
    finditer 't' 'h' 3 2 s ≠ [] := by
  induction s with
  | nil => exact absurd hm matchesDrought_nil
  | cons x xs ih =>
      rw [finditer_cons_eq]
      by_cases hcond : 1 ≤ countLeading 't' (x :: xs) ∧
          3 ≤ countLeading 't' (x :: xs) ∧
          2 ≤ countLeading 'h'
            (List.drop (countLeading 't' (x :: xs)) (x :: xs))
      · rw [if_pos hcond]
        simp
      · rw [if_neg hcond]
        apply ih
        obtain ⟨u, a, b, v, ha, hb, heq⟩ := hm
        rw [List.append_assoc, List.append_assoc] at heq
        cases u with
        | nil =>
            exfalso
            apply hcond
            rw [List.nil_append] at heq
            obtain ⟨hclt, hclh⟩ := matches_head_cond ha hb heq
            exact ⟨by omega, by omega, hclh⟩
        | cons u0 u1 =>
            rw [List.cons_append] at heq
            injection heq with hx0 hxs
            exact ⟨u1, a, b, v, ha, hb, by rw [hxs]; simp [List.append_assoc]⟩

theorem finditer_ne_nil_matches {s : List Char}
    (hne : finditer 't' 'h' 3 2 s ≠ []) : matchesDrought s := by
  induction s with
  | nil =>
      rw [finditer] at hne
      exact absurd rfl hne
  | cons x xs ih =>
      rw [finditer_cons_eq] at hne
      by_cases hcond : 1 ≤ countLeading 't' (x :: xs) ∧
          3 ≤ countLeading 't' (x :: xs) ∧
          2 ≤ countLeading 'h'
            (List.drop (countLeading 't' (x :: xs)) (x :: xs))
      · exact countLeading_matches hcond.2.1 hcond.2.2
      · rw [if_neg hcond] at hne
        exact matchesDrought_cons x (ih hne)

/-- C1: `DFA.run` returns true exactly on the sequences containing a run of
at least 3 t immediately followed by at least 2 h — the sequences on which
the drought regex matches somewhere — so it agrees with the external pattern
detector on the at-least-one-occurrence question. -/
theorem run_iff_drought (d : DFA) (s : List Char) :
    ((DFA.run d s).1 = true ↔ matchesDrought s) ∧
    ((DFA.run d s).1 = true ↔ (detectar_patrones s).1 ≠ []) := by
  have hrun : (DFA.run d s).1 = true ↔ matchesDrought s := by
    rw [DFA.run, runFrom_eq_foldl _ _ (by simp [DFA.reset])]
    exact foldl_accept_iff s
  refine ⟨hrun, hrun.trans ⟨fun hm => matches_finditer_ne_nil hm,
    fun hne => finditer_ne_nil_matches hne⟩⟩

end Prueba
